import Mathlib

/-
Verification of CuraEngine's `src/utils/TravellingSalesman.h` (random-insertion
heuristic for the open-path Travelling Salesman Problem with per-element
orientation choices).

The C++ header is translated into Lean as a shallow embedding:
  * `Waypoint` mirrors the C++ `Waypoint<E>` struct.  In the C++ code the field
    `best_orientation_index` is uninitialized until the waypoint is placed in
    the working path; this write-once lifecycle is modelled by the separate
    record `PlacedWaypoint`, which pairs the waypoint with the index chosen at
    the moment of insertion.
  * The `std::list` working path is modelled as a `List` of placed waypoints;
    an iterator used as an insertion place is modelled as a `Nat` position
    (insert before index `pos`; `pos = length` is `push_back`).
  * The running minimum `(best_distance, best_insert, best_orientation_index)`
    is modelled as `Int × Option (Nat × Nat)`: the C++ `best_insert` /
    `best_orientation_index` variables are uninitialized until the first strict
    improvement over the `int64_t` sentinel `int64Max`, which `Option` records.
    Where the C++ would read those variables uninitialized (only possible when
    an element offers no orientation candidate, see the safety analysis), the
    model uses the fixed fallback position 0 / orientation 0.
-/

/-- Modelled from the spec: the 2-D point type of `intpoint.h` (the header is
not part of the sources here).  The spec requires only vector subtraction and
Euclidean magnitude; coordinates are the integer type used by CuraEngine. -/
abbrev Point : Type := Int × Int

/-- Modelled from the spec: `vSize` of `intpoint.h`, the Euclidean magnitude of
a vector, computed on integers (truncating square root), as used for all
distances in the insertion costs. -/
def vSize (p : Point) : Int :=
  Int.ofNat (Nat.sqrt (p.1 * p.1 + p.2 * p.2).toNat)

/-- The `int64_t` sentinel `std::numeric_limits<int64_t>::max()` that
initializes `best_distance` before each scan. -/
def int64Max : Int := 9223372036854775807

/-- The C++ `Waypoint<E>` struct: the cached orientation candidates (field name
`orientation_indices` kept from the source) and the element. -/
structure Waypoint (E : Type) where
  orientation_indices : List (Point × Point)
  element : E

/-- A waypoint together with the `best_orientation_index` written when it was
inserted into the working path (write-once in the C++ code). -/
structure PlacedWaypoint (E : Type) where
  wp : Waypoint E
  best_orientation_index : Nat

instance {E : Type} [Inhabited E] : Inhabited (Waypoint E) := ⟨⟨[], default⟩⟩

instance {E : Type} [Inhabited E] : Inhabited (PlacedWaypoint E) := ⟨⟨⟨[], default⟩, 0⟩⟩

/-- `orientation_indices[best_orientation_index].first` of a placed waypoint:
the start point of the traversal in the chosen orientation.  An out-of-range
index (an uninitialized read in the C++ code) yields the origin. -/
def entryOf {E : Type} (p : PlacedWaypoint E) : Point :=
  (p.wp.orientation_indices.getD p.best_orientation_index ((0, 0), (0, 0))).1

/-- `orientation_indices[best_orientation_index].second` of a placed waypoint:
the end point of the traversal in the chosen orientation. -/
def exitOf {E : Type} (p : PlacedWaypoint E) : Point :=
  (p.wp.orientation_indices.getD p.best_orientation_index ((0, 0), (0, 0))).2

/-- Modelled from the spec: one step of the fixed-seed pseudo-random engine
(`std::default_random_engine`; the standard library's engine and the exact
`std::shuffle` algorithm are not part of the sources here, and the spec fixes
only that the shuffle is a deterministically seeded pseudo-random permutation).
A minimal-standard linear congruential step is used. -/
def rngNext (s : Nat) : Nat := 16807 * s % 2147483647

/-- Remove the element at index `i` from a list, returning it and the rest. -/
def pickIdx {α : Type} : Nat → List α → Option (α × List α)
  | _, [] => none
  | 0, x :: t => some (x, t)
  | n + 1, x :: t =>
    match pickIdx n t with
    | none => none
    | some (y, r) => some (y, x :: r)

/-- Modelled from the spec: the deterministically seeded pseudo-random
permutation used by `std::shuffle(shuffled.begin(), shuffled.end(), rng)`:
repeatedly extract a pseudo-randomly chosen element. -/
def shuffleGo {α : Type} : Nat → Nat → List α → List α
  | 0, _, l => l
  | fuel + 1, s, l =>
    match pickIdx (s % l.length) l with
    | none => l
    | some (x, r) => x :: shuffleGo fuel (rngNext s) r

/-- The shuffle of `findPath`, seeded with the hard-coded constant `0xDECAFF`
from `TravellingSalesman.h` line 235. -/
def shuffle {α : Type} (l : List α) : List α := shuffleGo l.length 0xDECAFF l

/-- `TravellingSalesman::fillWaypoints` (lines 315-326): wrap every element in
a waypoint, caching `get_orientations(element)`. -/
def fillWaypoints {E : Type} (get_orientations : E → List (Point × Point))
    (elements : List E) : List (Waypoint E) :=
  elements.map (fun element => ⟨get_orientations element, element⟩)

/-- The `distance` computed inside the loop of `tryInsertFirst`
(lines 335-345): the optional starting-point leg plus the leg from the end of
this element to the start of the current first element. -/
def tryInsertFirstCost {E : Type} (starting_point : Option Point) (w : Waypoint E)
    (first_element : PlacedWaypoint E) (orientation : Nat) : Int :=
  let q := w.orientation_indices.getD orientation ((0, 0), (0, 0))
  let before_distance : Int :=
    match starting_point with
    | some s => vSize (s - q.1)
    | none => 0
  let after_distance : Int := vSize (q.2 - entryOf first_element)
  before_distance + after_distance

/-- `TravellingSalesman::tryInsertFirst` (lines 328-353): scan all orientations
for insertion before the first element (position 0), updating the running best
on strict improvement. -/
def tryInsertFirst {E : Type} (starting_point : Option Point) (w : Waypoint E)
    (first_element : PlacedWaypoint E) (st : Int × Option (Nat × Nat)) :
    Int × Option (Nat × Nat) :=
  (List.range w.orientation_indices.length).foldl
    (fun st orientation =>
      if tryInsertFirstCost starting_point w first_element orientation < st.1 then
        (tryInsertFirstCost starting_point w first_element orientation,
          some ((0 : Nat), orientation))
      else st)
    st

/-- The `distance` computed inside the loop of `tryInsertLast` (lines 362-366):
from the end of the current last element to the start of this element. -/
def tryInsertLastCost {E : Type} (w : Waypoint E) (last_element : PlacedWaypoint E)
    (orientation : Nat) : Int :=
  let q := w.orientation_indices.getD orientation ((0, 0), (0, 0))
  vSize (exitOf last_element - q.1)

/-- `TravellingSalesman::tryInsertLast` (lines 355-374): scan all orientations
for insertion after the last element (position `after_insert`). -/
def tryInsertLast {E : Type} (w : Waypoint E) (last_element : PlacedWaypoint E)
    (after_insert : Nat) (st : Int × Option (Nat × Nat)) : Int × Option (Nat × Nat) :=
  (List.range w.orientation_indices.length).foldl
    (fun st orientation =>
      if tryInsertLastCost w last_element orientation < st.1 then
        (tryInsertLastCost w last_element orientation, some (after_insert, orientation))
      else st)
    st

/-- The `distance` computed inside the loop of `tryInsertMiddle`
(lines 383-392): legs to and from the new element minus the removed edge. -/
def tryInsertMiddleCost {E : Type} (w : Waypoint E)
    (before_insert after_insert : PlacedWaypoint E) (orientation : Nat) : Int :=
  let q := w.orientation_indices.getD orientation ((0, 0), (0, 0))
  let removed_distance : Int := vSize (exitOf before_insert - entryOf after_insert)
  let before_distance : Int := vSize (exitOf before_insert - q.1)
  let after_distance : Int := vSize (q.2 - entryOf after_insert)
  before_distance + after_distance - removed_distance

/-- `TravellingSalesman::tryInsertMiddle` (lines 376-400): scan all
orientations for insertion between two adjacent elements (the new waypoint goes
before position `pos`). -/
def tryInsertMiddle {E : Type} (w : Waypoint E)
    (before_insert after_insert : PlacedWaypoint E) (pos : Nat)
    (st : Int × Option (Nat × Nat)) : Int × Option (Nat × Nat) :=
  (List.range w.orientation_indices.length).foldl
    (fun st orientation =>
      if tryInsertMiddleCost w before_insert after_insert orientation < st.1 then
        (tryInsertMiddleCost w before_insert after_insert orientation, some (pos, orientation))
      else st)
    st

/-- The iterator walk of `findPath` lines 275-287: `before_insert` runs over
the path; with a successor the candidate is a middle insertion (before index
`pos + 1`), at the final element it is the back insertion (position
`pos + 1 = length`).  `pos` is the index of the head of the remaining list. -/
def scanPositions {E : Type} (w : Waypoint E) :
    Nat → List (PlacedWaypoint E) → Int × Option (Nat × Nat) → Int × Option (Nat × Nat)
  | _, [], st => st
  | p, [last_element], st => tryInsertLast w last_element (p + 1) st
  | p, before_insert :: next_element :: rest, st =>
      scanPositions w (p + 1) (next_element :: rest)
        (tryInsertMiddle w before_insert next_element (p + 1) st)

/-- One round's full candidate scan (lines 266-287): first the front position
via `tryInsertFirst`, then the walk over middle positions and the back
position, starting from the sentinel state. -/
def scanRound {E : Type} (starting_point : Option Point)
    (path : List (PlacedWaypoint E)) (w : Waypoint E) : Int × Option (Nat × Nat) :=
  match path with
  | [] => (int64Max, none)
  | first_element :: _ =>
      scanPositions w 0 path (tryInsertFirst starting_point w first_element (int64Max, none))

/-- Insert an element before position `pos` of a list (`std::list::insert`;
`pos = length` is the `push_back` branch of lines 291-298). -/
def insertAt {α : Type} : Nat → α → List α → List α
  | 0, x, l => x :: l
  | _ + 1, x, [] => [x]
  | n + 1, x, a :: l => a :: insertAt n x l

/-- One insertion round (lines 264-299): scan all candidate positions and
orientations, then commit the waypoint at the best position with the best
orientation.  The C++ commit runs unconditionally; when no candidate improved
on the sentinel it reads uninitialized variables (see the safety analysis),
which the model replaces by the fixed fallback position 0, orientation 0. -/
def insertRound {E : Type} (starting_point : Option Point)
    (path : List (PlacedWaypoint E)) (w : Waypoint E) : List (PlacedWaypoint E) :=
  match (scanRound starting_point path w).2 with
  | some (pos, orientation) => insertAt pos ⟨w, orientation⟩ path
  | none => insertAt 0 ⟨w, 0⟩ path

/-- The seeding of the path with the first shuffled waypoint (lines 241-261):
without a starting point, orientation 0; with a starting point, the orientation
whose start point is nearest to it (strict-improvement scan from the sentinel).
The uninitialized read possible when there are no orientation candidates is
modelled by the fallback 0. -/
def seedOrientation {E : Type} (starting_point : Option Point) (w : Waypoint E) : Nat :=
  match starting_point with
  | none => 0
  | some s =>
      ((List.range w.orientation_indices.length).foldl
        (fun st orientation_index =>
          if vSize (s - (w.orientation_indices.getD orientation_index ((0, 0), (0, 0))).1)
              < st.1 then
            (vSize (s - (w.orientation_indices.getD orientation_index ((0, 0), (0, 0))).1),
              some orientation_index)
          else st)
        ((int64Max : Int), (none : Option Nat))).2.getD 0

/-- `TravellingSalesman::findPath` (lines 224-313).  The in-out reference
parameter `element_orientations` is modelled by explicit state passing: the
function takes its value at call time and returns its value on return (the
empty-input early return at lines 230-233 leaves it untouched; otherwise it is
cleared and refilled at lines 304-309). -/
def findPath {E : Type} (get_orientations : E → List (Point × Point))
    (elements : List E) (element_orientations : List Nat)
    (starting_point : Option Point) : List E × List Nat :=
  match elements with
  | [] => ([], element_orientations)
  | _ :: _ =>
    match shuffle (fillWaypoints get_orientations elements) with
    | [] => ([], element_orientations)
    | w0 :: rest =>
      let path := rest.foldl (fun p w => insertRound starting_point p w)
        [⟨w0, seedOrientation starting_point w0⟩]
      (path.map (fun p => p.wp.element), path.map (fun p => p.best_orientation_index))

/-! ### Generic strict-improvement scans

Every loop of the algorithm that maintains `(best_distance, best_…)` has the
same shape: fold a candidate list, replacing the state exactly when the
candidate's cost is strictly below the running best.  `runScan` captures that
shape once; the loops of the source are proved equal to instances of it. -/

/-- Fold a candidate list, keeping the first candidate that attains the
minimum cost (update on strict improvement only). -/
def runScan {ι : Type} (c : ι → Int) (seq : List ι) (st : Int × Option ι) :
    Int × Option ι :=
  seq.foldl (fun st i => if c i < st.1 then (c i, some i) else st) st

lemma runScan_append {ι : Type} (c : ι → Int) (s₁ s₂ : List ι) (st : Int × Option ι) :
    runScan c (s₁ ++ s₂) st = runScan c s₂ (runScan c s₁ st) :=
  List.foldl_append _ _ _ _

/-- Full characterization of a strict-improvement scan: either no candidate
beat the initial bound and the state is untouched, or the scan ends at the
first candidate attaining the minimum — everything before it costs strictly
more, everything after it costs at least as much. -/
lemma runScan_char {ι : Type} (c : ι → Int) :
    ∀ (seq : List ι) (d : Int) (r : Option ι),
      (runScan c seq (d, r) = (d, r) ∧ ∀ i ∈ seq, d ≤ c i) ∨
      (∃ b s₁ s₂, seq = s₁ ++ b :: s₂ ∧ runScan c seq (d, r) = (c b, some b) ∧
        c b < d ∧ (∀ i ∈ s₁, c b < c i) ∧ (∀ i ∈ s₂, c b ≤ c i)) := by
  intro seq
  induction seq with
  | nil => intro d r; left; exact ⟨rfl, by simp⟩
  | cons a t ih =>
    intro d r
    by_cases h : c a < d
    · have step : runScan c (a :: t) (d, r) = runScan c t (c a, some a) := by
        simp [runScan, h]
      rcases ih (c a) (some a) with ⟨heq, hall⟩ | ⟨b, s₁, s₂, hseq, heq, hlt, h₁, h₂⟩
      · right
        exact ⟨a, [], t, rfl, by rw [step, heq], h, by simp, hall⟩
      · right
        refine ⟨b, a :: s₁, s₂, by rw [hseq]; rfl, by rw [step, heq], lt_trans hlt h, ?_, h₂⟩
        intro i hi
        rcases List.mem_cons.mp hi with rfl | hi
        · exact hlt
        · exact h₁ i hi
    · have step : runScan c (a :: t) (d, r) = runScan c t (d, r) := by
        simp [runScan, h]
      have hle : d ≤ c a := le_of_not_lt h
      rcases ih d r with ⟨heq, hall⟩ | ⟨b, s₁, s₂, hseq, heq, hlt, h₁, h₂⟩
      · left
        refine ⟨by rw [step, heq], ?_⟩
        intro i hi
        rcases List.mem_cons.mp hi with rfl | hi
        · exact hle
        · exact hall i hi
      · right
        refine ⟨b, a :: s₁, s₂, by rw [hseq]; rfl, by rw [step, heq], hlt, ?_, h₂⟩
        intro i hi
        rcases List.mem_cons.mp hi with rfl | hi
        · exact lt_of_lt_of_le hlt hle
        · exact h₁ i hi

/-- If a scan ends with `some b`, then either it started there or `b` is one of
the candidates. -/
lemma runScan_some_mem {ι : Type} (c : ι → Int) :
    ∀ (seq : List ι) (st : Int × Option ι) (b : ι),
      (runScan c seq st).2 = some b → st.2 = some b ∨ b ∈ seq := by
  intro seq
  induction seq with
  | nil => intro st b h; exact Or.inl h
  | cons a t ih =>
    intro st b h
    have h' : (runScan c t (if c a < st.1 then (c a, some a) else st)).2 = some b := h
    rcases ih _ b h' with h2 | h2
    · by_cases hca : c a < st.1
      · rw [if_pos hca] at h2
        exact Or.inr (List.mem_cons.mpr (Or.inl (by injection h2 with h3; exact h3.symm)))
      · rw [if_neg hca] at h2
        exact Or.inl h2
    · exact Or.inr (List.mem_cons_of_mem _ h2)

/-- A fold whose body stores `some (g o)` on strict improvement is a `runScan`
over the mapped candidate list, provided the costs agree. -/
lemma foldl_if_eq_runScan {ι : Type} (cost : ι → Int) (c : Nat → Int) (g : Nat → ι)
    (h : ∀ o, cost (g o) = c o) :
    ∀ (l : List Nat) (st : Int × Option ι),
      l.foldl (fun st o => if c o < st.1 then (c o, some (g o)) else st) st
        = runScan cost (l.map g) st := by
  intro l
  induction l with
  | nil => intro st; rfl
  | cons a t ih =>
    intro st
    have hbody : (if c a < st.1 then (c a, some (g a)) else st)
        = (if cost (g a) < st.1 then (cost (g a), some (g a)) else st) := by
      rw [h a]
    calc (a :: t).foldl (fun st o => if c o < st.1 then (c o, some (g o)) else st) st
        = t.foldl (fun st o => if c o < st.1 then (c o, some (g o)) else st)
            (if c a < st.1 then (c a, some (g a)) else st) := rfl
      _ = runScan cost (t.map g) (if c a < st.1 then (c a, some (g a)) else st) := ih _
      _ = runScan cost ((a :: t).map g) st := by rw [hbody]; rfl

/-! ### List helpers -/

lemma getD_of_drop_cons {α : Type} :
    ∀ (l : List α) (n : Nat) (x : α) (t : List α) (d : α),
      l.drop n = x :: t → l.getD n d = x := by
  intro l
  induction l with
  | nil => intro n x t d h; simp at h
  | cons a l ih =>
    intro n x t d h
    cases n with
    | zero =>
      simp only [List.drop_zero] at h
      rw [List.getD_cons_zero]
      exact (List.cons.injEq _ _ _ _ ▸ h).1.symm ▸ rfl
    | succ n =>
      rw [List.getD_cons_succ]
      exact ih n x t d h

lemma insertAt_split {α : Type} :
    ∀ (pos : Nat) (x : α) (l : List α),
      ∃ l₁ l₂, l = l₁ ++ l₂ ∧ insertAt pos x l = l₁ ++ x :: l₂ := by
  intro pos
  induction pos with
  | zero => intro x l; exact ⟨[], l, rfl, rfl⟩
  | succ n ih =>
    intro x l
    cases l with
    | nil => exact ⟨[], [], rfl, rfl⟩
    | cons a l =>
      obtain ⟨l₁, l₂, h1, h2⟩ := ih x l
      refine ⟨a :: l₁, l₂, by rw [h1]; rfl, ?_⟩
      show a :: insertAt n x l = a :: (l₁ ++ x :: l₂)
      rw [h2]

lemma pairwise_split {ι : Type} {R : ι → ι → Prop} (s₁ : List ι) (b : ι) (s₂ : List ι)
    (h : List.Pairwise R (s₁ ++ b :: s₂)) :
    (∀ x ∈ s₁, R x b) ∧ (∀ y ∈ s₂, R b y) := by
  rw [List.pairwise_append] at h
  obtain ⟨h₁, h₂, hc⟩ := h
  rw [List.pairwise_cons] at h₂
  exact ⟨fun x hx => hc x hx b (List.mem_cons_self b s₂), h₂.1⟩

/-! ### The insertion-cost formulas of the specification -/

/-- Modelled from the spec: the insertion-cost formulas of design step 4, by
position case.  `pos = 0` is the front position (optional starting-point leg
plus the leg to the current first element), `pos = path.length` is the back
position (leg from the current last element), and any other `pos` is the middle
position between the elements at `pos - 1` and `pos` (marginal path-length
increase: the two new legs minus the replaced edge).  All distances are the
Euclidean magnitude `vSize` of the vector difference of the two points. -/
def insertionCost {E : Type} [Inhabited E] (starting_point : Option Point)
    (path : List (PlacedWaypoint E)) (w : Waypoint E) (pos orientation : Nat) : Int :=
  let q := w.orientation_indices.getD orientation ((0, 0), (0, 0))
  if pos = 0 then
    (match starting_point with
     | some s => vSize (s - q.1)
     | none => 0) + vSize (q.2 - entryOf (path.getD 0 default))
  else if pos = path.length then
    vSize (exitOf (path.getD (path.length - 1) default) - q.1)
  else
    vSize (exitOf (path.getD (pos - 1) default) - q.1)
      + vSize (q.2 - entryOf (path.getD pos default))
      - vSize (exitOf (path.getD (pos - 1) default) - entryOf (path.getD pos default))

lemma insertionCost_zero {E : Type} [Inhabited E] (sp : Option Point)
    (w : Waypoint E) (first_element : PlacedWaypoint E) (t : List (PlacedWaypoint E))
    (orientation : Nat) :
    insertionCost sp (first_element :: t) w 0 orientation
      = tryInsertFirstCost sp w first_element orientation := by
  simp [insertionCost, tryInsertFirstCost, List.getD_cons_zero]

lemma insertionCost_last {E : Type} [Inhabited E] (sp : Option Point)
    (path : List (PlacedWaypoint E)) (w : Waypoint E) (p : Nat) (x : PlacedWaypoint E)
    (orientation : Nat) (hd : path.drop p = [x]) :
    insertionCost sp path w (p + 1) orientation = tryInsertLastCost w x orientation := by
  have h1 : (path.drop p).length = path.length - p := List.length_drop p path
  rw [hd] at h1
  have hlen : path.length = p + 1 := by
    simp only [List.length_cons, List.length_nil] at h1
    omega
  have hx : path.getD p default = x := getD_of_drop_cons path p x [] default hd
  simp only [insertionCost]
  rw [if_neg (by omega : ¬ p + 1 = 0), if_pos (by omega : p + 1 = path.length)]
  rw [hlen]
  simp only [Nat.add_sub_cancel, hx]
  simp [tryInsertLastCost]

lemma insertionCost_middle {E : Type} [Inhabited E] (sp : Option Point)
    (path : List (PlacedWaypoint E)) (w : Waypoint E) (p : Nat)
    (b a : PlacedWaypoint E) (r : List (PlacedWaypoint E)) (orientation : Nat)
    (hd : path.drop p = b :: a :: r) :
    insertionCost sp path w (p + 1) orientation = tryInsertMiddleCost w b a orientation := by
  have h1 : (path.drop p).length = path.length - p := List.length_drop p path
  rw [hd] at h1
  simp only [List.length_cons] at h1
  have hb : path.getD p default = b := getD_of_drop_cons path p b (a :: r) default hd
  have hd2 : path.drop (p + 1) = a :: r := by
    rw [← List.tail_drop path p, hd]
    rfl
  have ha : path.getD (p + 1) default = a := getD_of_drop_cons path (p + 1) a r default hd2
  simp only [insertionCost]
  rw [if_neg (by omega : ¬ p + 1 = 0), if_neg (by omega : ¬ p + 1 = path.length)]
  simp only [Nat.add_sub_cancel, hb, ha]
  simp only [tryInsertMiddleCost]

/-! ### The candidate sequence of one round, in scan order -/

/-- All `(position, orientation)` pairs with positions `p, p+1, …, p+k-1`, each
position carrying the orientations `0, …, n-1` in ascending order. -/
def scanSeqFrom (n : Nat) : Nat → Nat → List (Nat × Nat)
  | _, 0 => []
  | p, k + 1 => (List.range n).map (fun o => (p, o)) ++ scanSeqFrom n (p + 1) k

/-- The candidate pairs one insertion round inspects, in the order the source
scans them: the front position 0, the middle positions `1, …, m-1` from left to
right, and the back position `m`; within each position the orientations in
ascending index order. -/
def scanSeq (m n : Nat) : List (Nat × Nat) := scanSeqFrom n 0 (m + 1)

/-- Strict lexicographic order on `(position, orientation)` pairs: exactly the
scan order of one insertion round. -/
def lexLt (a b : Nat × Nat) : Prop := a.1 < b.1 ∨ (a.1 = b.1 ∧ a.2 < b.2)

lemma mem_scanSeqFrom (n : Nat) :
    ∀ (k p : Nat) (pr : Nat × Nat),
      pr ∈ scanSeqFrom n p k ↔ (p ≤ pr.1 ∧ pr.1 < p + k ∧ pr.2 < n) := by
  intro k
  induction k with
  | zero => intro p pr; simp [scanSeqFrom]; omega
  | succ k ih =>
    intro p pr
    rw [scanSeqFrom, List.mem_append, ih (p + 1)]
    simp only [List.mem_map, List.mem_range]
    constructor
    · rintro (⟨o, ho, rfl⟩ | ⟨hp1, hp2, hn⟩)
      · exact ⟨le_refl _, by omega, ho⟩
      · exact ⟨by omega, by omega, hn⟩
    · rintro ⟨hp1, hp2, hn⟩
      rcases Nat.eq_or_lt_of_le hp1 with heq | hlt
      · exact Or.inl ⟨pr.2, hn, by rw [heq]⟩
      · exact Or.inr ⟨hlt, by omega, hn⟩

lemma mem_scanSeq (m n : Nat) (pr : Nat × Nat) :
    pr ∈ scanSeq m n ↔ (pr.1 ≤ m ∧ pr.2 < n) := by
  rw [scanSeq, mem_scanSeqFrom]
  omega

lemma pairwise_scanSeqFrom (n : Nat) :
    ∀ (k p : Nat), List.Pairwise lexLt (scanSeqFrom n p k) := by
  intro k
  induction k with
  | zero => intro p; exact List.Pairwise.nil
  | succ k ih =>
    intro p
    rw [scanSeqFrom, List.pairwise_append]
    refine ⟨?_, ih (p + 1), ?_⟩
    · rw [List.pairwise_map]
      exact (List.pairwise_lt_range n).imp (fun h => Or.inr ⟨rfl, h⟩)
    · intro x hx y hy
      obtain ⟨o, _, rfl⟩ := List.mem_map.mp hx
      have hy1 : p + 1 ≤ y.1 := ((mem_scanSeqFrom n k (p + 1) y).mp hy).1
      exact Or.inl (by omega)

lemma pairwise_scanSeq (m n : Nat) : List.Pairwise lexLt (scanSeq m n) :=
  pairwise_scanSeqFrom n (m + 1) 0

/-! ### The scan loops are `runScan` over the candidate sequence -/

lemma tryInsertFirst_runScan {E : Type} [Inhabited E] (sp : Option Point)
    (w : Waypoint E) (first_element : PlacedWaypoint E) (t : List (PlacedWaypoint E))
    (st : Int × Option (Nat × Nat)) :
    tryInsertFirst sp w first_element st
      = runScan (fun pr => insertionCost sp (first_element :: t) w pr.1 pr.2)
          ((List.range w.orientation_indices.length).map (fun o => ((0 : Nat), o))) st := by
  unfold tryInsertFirst
  exact foldl_if_eq_runScan (fun pr => insertionCost sp (first_element :: t) w pr.1 pr.2)
    (tryInsertFirstCost sp w first_element) (fun o => ((0 : Nat), o))
    (fun o => insertionCost_zero sp w first_element t o)
    (List.range w.orientation_indices.length) st

lemma tryInsertLast_runScan {E : Type} [Inhabited E] (sp : Option Point)
    (path : List (PlacedWaypoint E)) (w : Waypoint E) (p : Nat) (x : PlacedWaypoint E)
    (st : Int × Option (Nat × Nat)) (hd : path.drop p = [x]) :
    tryInsertLast w x (p + 1) st
      = runScan (fun pr => insertionCost sp path w pr.1 pr.2)
          ((List.range w.orientation_indices.length).map (fun o => (p + 1, o))) st := by
  unfold tryInsertLast
  exact foldl_if_eq_runScan (fun pr => insertionCost sp path w pr.1 pr.2)
    (tryInsertLastCost w x) (fun o => (p + 1, o))
    (fun o => insertionCost_last sp path w p x o hd)
    (List.range w.orientation_indices.length) st

lemma tryInsertMiddle_runScan {E : Type} [Inhabited E] (sp : Option Point)
    (path : List (PlacedWaypoint E)) (w : Waypoint E) (p : Nat)
    (b a : PlacedWaypoint E) (r : List (PlacedWaypoint E)) (st : Int × Option (Nat × Nat))
    (hd : path.drop p = b :: a :: r) :
    tryInsertMiddle w b a (p + 1) st
      = runScan (fun pr => insertionCost sp path w pr.1 pr.2)
          ((List.range w.orientation_indices.length).map (fun o => (p + 1, o))) st := by
  unfold tryInsertMiddle
  exact foldl_if_eq_runScan (fun pr => insertionCost sp path w pr.1 pr.2)
    (tryInsertMiddleCost w b a) (fun o => (p + 1, o))
    (fun o => insertionCost_middle sp path w p b a r o hd)
    (List.range w.orientation_indices.length) st

lemma scanPositions_runScan {E : Type} [Inhabited E] (sp : Option Point)
    (w : Waypoint E) (path : List (PlacedWaypoint E)) :
    ∀ (l : List (PlacedWaypoint E)) (p : Nat) (st : Int × Option (Nat × Nat)),
      path.drop p = l → l ≠ [] →
      scanPositions w p l st
        = runScan (fun pr => insertionCost sp path w pr.1 pr.2)
            (scanSeqFrom w.orientation_indices.length (p + 1) l.length) st := by
  intro l
  induction l with
  | nil => intro p st _ hne; exact absurd rfl hne
  | cons x t ih =>
    intro p st hd _
    cases t with
    | nil =>
      show tryInsertLast w x (p + 1) st = _
      rw [tryInsertLast_runScan sp path w p x st hd]
      have h0 : scanSeqFrom w.orientation_indices.length (p + 1) [x].length
          = (List.range w.orientation_indices.length).map (fun o => (p + 1, o)) := by
        show (List.range w.orientation_indices.length).map (fun o => (p + 1, o))
          ++ scanSeqFrom w.orientation_indices.length (p + 2) 0 = _
        rw [show scanSeqFrom w.orientation_indices.length (p + 2) 0 = [] from rfl]
        exact List.append_nil _
      rw [h0]
    | cons y r =>
      show scanPositions w (p + 1) (y :: r) (tryInsertMiddle w x y (p + 1) st) = _
      have hd2 : path.drop (p + 1) = y :: r := by
        rw [← List.tail_drop path p, hd]; rfl
      rw [ih (p + 1) _ hd2 (by simp)]
      rw [tryInsertMiddle_runScan sp path w p x y r st hd]
      rw [← runScan_append]
      rfl

/-- One round's candidate scan (the transcription of lines 266-287) is the
strict-improvement scan of the spec's insertion-cost formulas over all
`(position, orientation)` pairs in scan order, from the sentinel state. -/
lemma scanRound_runScan {E : Type} [Inhabited E] (sp : Option Point)
    (path : List (PlacedWaypoint E)) (w : Waypoint E) (hne : path ≠ []) :
    scanRound sp path w
      = runScan (fun pr => insertionCost sp path w pr.1 pr.2)
          (scanSeq path.length w.orientation_indices.length) (int64Max, none) := by
  cases path with
  | nil => exact absurd rfl hne
  | cons first_element t =>
    show scanPositions w 0 (first_element :: t)
        (tryInsertFirst sp w first_element (int64Max, none)) = _
    rw [tryInsertFirst_runScan sp w first_element t]
    rw [scanPositions_runScan sp w (first_element :: t) (first_element :: t) 0 _ rfl
      (by simp)]
    rw [← runScan_append]
    rfl

/-! ### The shuffle is a deterministic permutation -/

lemma pickIdx_perm {α : Type} :
    ∀ (l : List α) (i : Nat) (x : α) (r : List α),
      pickIdx i l = some (x, r) → l.Perm (x :: r) := by
  intro l
  induction l with
  | nil => intro i x r h; simp [pickIdx] at h
  | cons a t ih =>
    intro i x r h
    cases i with
    | zero =>
      simp only [pickIdx, Option.some.injEq, Prod.mk.injEq] at h
      obtain ⟨rfl, rfl⟩ := h
      exact List.Perm.refl _
    | succ i =>
      simp only [pickIdx] at h
      rcases hp : pickIdx i t with _ | ⟨y, r2⟩
      · rw [hp] at h; simp at h
      · rw [hp] at h
        simp only [Option.some.injEq, Prod.mk.injEq] at h
        obtain ⟨rfl, rfl⟩ := h
        exact ((ih i y r2 hp).cons a).trans (List.Perm.swap y a r2)

lemma shuffleGo_perm {α : Type} :
    ∀ (fuel s : Nat) (l : List α), (shuffleGo fuel s l).Perm l := by
  intro fuel
  induction fuel with
  | zero => intro s l; exact List.Perm.refl _
  | succ fuel ih =>
    intro s l
    simp only [shuffleGo]
    rcases hp : pickIdx (s % l.length) l with _ | ⟨x, r⟩
    · exact List.Perm.refl _
    · exact ((ih (rngNext s) r).cons x).trans (pickIdx_perm l _ x r hp).symm

lemma shuffle_perm {α : Type} (l : List α) : (shuffle l).Perm l := shuffleGo_perm _ _ l

lemma shuffle_length {α : Type} (l : List α) : (shuffle l).length = l.length :=
  (shuffle_perm l).length_eq

lemma shuffleGo_one {α : Type} (s : Nat) (x : α) : shuffleGo 1 s [x] = [x] := by
  show (match pickIdx (s % ([x] : List α).length) [x] with
        | none => [x]
        | some (y, r) => y :: shuffleGo 0 (rngNext s) r) = [x]
  have h1 : s % ([x] : List α).length = 0 := Nat.mod_one s
  rw [h1]
  rfl

lemma shuffle_singleton {α : Type} (x : α) : shuffle [x] = [x] := shuffleGo_one 0xDECAFF x

/-! ### Boundedness and validity predicates -/

/-- Coordinates within ±2^29: the range in which every distance computed by
the algorithm (sums of at most two `vSize` values) stays far below the
`int64_t` sentinel, so the strict-improvement comparisons behave as the
`int64_t` arithmetic of the source intends.  CuraEngine coordinates are
micrometres, well inside this range. -/
def boundedPt (p : Point) : Prop := p.1.natAbs ≤ 536870912 ∧ p.2.natAbs ≤ 536870912

/-- All orientation candidates of a waypoint have bounded coordinates. -/
def BoundedW {E : Type} (w : Waypoint E) : Prop :=
  ∀ q ∈ w.orientation_indices, boundedPt q.1 ∧ boundedPt q.2

/-- The chosen orientation index of a placed waypoint is in range. -/
def ValidPlaced {E : Type} (p : PlacedWaypoint E) : Prop :=
  p.best_orientation_index < p.wp.orientation_indices.length

/-- Every waypoint in the working path has a valid chosen orientation and
bounded candidate points. -/
def GoodPath {E : Type} (path : List (PlacedWaypoint E)) : Prop :=
  ∀ p ∈ path, ValidPlaced p ∧ BoundedW p.wp

/-- The optional starting point, when present, has bounded coordinates. -/
def spBounded : Option Point → Prop
  | none => True
  | some s => boundedPt s

lemma vSize_nonneg (p : Point) : 0 ≤ vSize p := Int.ofNat_nonneg _

lemma vSize_sub_le {a b : Point} (ha : boundedPt a) (hb : boundedPt b) :
    vSize (a - b) ≤ 2147483648 := by
  obtain ⟨ha1, ha2⟩ := ha
  obtain ⟨hb1, hb2⟩ := hb
  have hx : (a.1 - b.1).natAbs ≤ 1073741824 :=
    le_trans (Int.natAbs_sub_le a.1 b.1) (by omega)
  have hy : (a.2 - b.2).natAbs ≤ 1073741824 :=
    le_trans (Int.natAbs_sub_le a.2 b.2) (by omega)
  have hfst : (a - b).1 = a.1 - b.1 := Prod.fst_sub a b
  have hsnd : (a - b).2 = a.2 - b.2 := Prod.snd_sub a b
  rw [vSize, hfst, hsnd]
  have hsq : ((a.1 - b.1) * (a.1 - b.1) + (a.2 - b.2) * (a.2 - b.2)).toNat
      = (a.1 - b.1).natAbs * (a.1 - b.1).natAbs
        + (a.2 - b.2).natAbs * (a.2 - b.2).natAbs := by
    rw [← Int.natAbs_mul_self, ← Int.natAbs_mul_self]
    omega
  rw [hsq]
  have hle : (a.1 - b.1).natAbs * (a.1 - b.1).natAbs
      + (a.2 - b.2).natAbs * (a.2 - b.2).natAbs ≤ 2147483648 * 2147483648 := by
    have h1 : (a.1 - b.1).natAbs * (a.1 - b.1).natAbs ≤ 1073741824 * 1073741824 :=
      Nat.mul_le_mul hx hx
    have h2 : (a.2 - b.2).natAbs * (a.2 - b.2).natAbs ≤ 1073741824 * 1073741824 :=
      Nat.mul_le_mul hy hy
    omega
  have hs := Nat.sqrt_le_sqrt hle
  rw [Nat.sqrt_eq] at hs
  exact Int.ofNat_le.mpr hs

lemma getD_mem_of_lt {α : Type} :
    ∀ (l : List α) (n : Nat) (d : α), n < l.length → l.getD n d ∈ l := by
  intro l
  induction l with
  | nil => intro n d h; simp at h
  | cons a t ih =>
    intro n d h
    cases n with
    | zero => rw [List.getD_cons_zero]; exact List.mem_cons_self a t
    | succ n =>
      rw [List.getD_cons_succ]
      exact List.mem_cons_of_mem a (ih n d (by simpa using h))

/-- Under the boundedness preconditions, the very first candidate of a round's
scan (front position, orientation 0) already costs strictly less than the
`int64_t` sentinel. -/
lemma front_cost_lt_sentinel {E : Type} [Inhabited E] (sp : Option Point)
    (path : List (PlacedWaypoint E)) (w : Waypoint E)
    (hpath : path ≠ []) (hgood : GoodPath path)
    (hw : w.orientation_indices ≠ []) (hb : BoundedW w) (hsp : spBounded sp) :
    insertionCost sp path w 0 0 < int64Max := by
  have hlen : 0 < w.orientation_indices.length := List.length_pos.mpr hw
  have hq := hb _ (getD_mem_of_lt w.orientation_indices 0 ((0, 0), (0, 0)) hlen)
  have hplen : 0 < path.length := List.length_pos.mpr hpath
  obtain ⟨hvalid, hbw⟩ := hgood _ (getD_mem_of_lt path 0 default hplen)
  have hentry := hbw _ (getD_mem_of_lt _ _ ((0, 0), (0, 0)) hvalid)
  have hafter : vSize ((w.orientation_indices.getD 0 ((0, 0), (0, 0))).2
      - entryOf (path.getD 0 default)) ≤ 2147483648 :=
    vSize_sub_le hq.2 hentry.1
  cases sp with
  | none =>
    show (0 : Int) + vSize ((w.orientation_indices.getD 0 ((0, 0), (0, 0))).2
        - entryOf (path.getD 0 default)) < int64Max
    rw [show int64Max = 9223372036854775807 from rfl]
    omega
  | some s =>
    have hbefore : vSize (s - (w.orientation_indices.getD 0 ((0, 0), (0, 0))).1)
        ≤ 2147483648 := vSize_sub_le hsp hq.1
    show vSize (s - (w.orientation_indices.getD 0 ((0, 0), (0, 0))).1)
        + vSize ((w.orientation_indices.getD 0 ((0, 0), (0, 0))).2
          - entryOf (path.getD 0 default)) < int64Max
    rw [show int64Max = 9223372036854775807 from rfl]
    omega

/-- Master lemma for one insertion round: under the preconditions the scan
commits to a `(position, orientation)` pair which is the lexicographically
first minimizer of the insertion cost over all candidate pairs, its cost is the
final best distance, strictly below the sentinel. -/
lemma scanRound_spec {E : Type} [Inhabited E] (sp : Option Point)
    (path : List (PlacedWaypoint E)) (w : Waypoint E)
    (hpath : path ≠ []) (hgood : GoodPath path)
    (hw : w.orientation_indices ≠ []) (hb : BoundedW w) (hsp : spBounded sp) :
    ∃ pos orientation,
      (scanRound sp path w).2 = some (pos, orientation) ∧
      (scanRound sp path w).1 = insertionCost sp path w pos orientation ∧
      (scanRound sp path w).1 < int64Max ∧
      pos ≤ path.length ∧ orientation < w.orientation_indices.length ∧
      (∀ pos2 orientation2, pos2 ≤ path.length →
        orientation2 < w.orientation_indices.length →
        insertionCost sp path w pos orientation
          ≤ insertionCost sp path w pos2 orientation2) ∧
      (∀ pos2 orientation2, pos2 ≤ path.length →
        orientation2 < w.orientation_indices.length →
        insertionCost sp path w pos2 orientation2 = insertionCost sp path w pos orientation →
        pos < pos2 ∨ (pos = pos2 ∧ orientation ≤ orientation2)) := by
  rw [scanRound_runScan sp path w hpath]
  rcases runScan_char (fun pr : Nat × Nat => insertionCost sp path w pr.1 pr.2)
      (scanSeq path.length w.orientation_indices.length) int64Max none with
    ⟨_, hall⟩ | ⟨b, s₁, s₂, hseq, heq, hlt, h₁, h₂⟩
  · exfalso
    have hmem : ((0, 0) : Nat × Nat) ∈ scanSeq path.length w.orientation_indices.length :=
      (mem_scanSeq _ _ _).mpr ⟨Nat.zero_le _, List.length_pos.mpr hw⟩
    exact absurd (front_cost_lt_sentinel sp path w hpath hgood hw hb hsp)
      (not_lt.mpr (hall _ hmem))
  · obtain ⟨pos, orientation⟩ := b
    have hbmem : ((pos, orientation) : Nat × Nat)
        ∈ scanSeq path.length w.orientation_indices.length := by
      rw [hseq]
      exact List.mem_append.mpr (Or.inr (List.mem_cons_self _ _))
    obtain ⟨hpos, horient⟩ := (mem_scanSeq _ _ _).mp hbmem
    have hpw := pairwise_scanSeq path.length w.orientation_indices.length
    rw [hseq] at hpw
    obtain ⟨hsplit1, hsplit2⟩ := pairwise_split s₁ _ s₂ hpw
    refine ⟨pos, orientation, by rw [heq], by rw [heq], by rw [heq]; exact hlt,
      hpos, horient, ?_, ?_⟩
    · intro pos2 orientation2 h2p h2o
      have hmem2 : ((pos2, orientation2) : Nat × Nat)
          ∈ scanSeq path.length w.orientation_indices.length :=
        (mem_scanSeq _ _ _).mpr ⟨h2p, h2o⟩
      rw [hseq] at hmem2
      rcases List.mem_append.mp hmem2 with hin1 | hin2
      · exact le_of_lt (h₁ _ hin1)
      · rcases List.mem_cons.mp hin2 with heq2 | hin2
        · injection heq2 with e1 e2
          subst e1; subst e2
          exact le_refl _
        · exact h₂ _ hin2
    · intro pos2 orientation2 h2p h2o heqc
      have hmem2 : ((pos2, orientation2) : Nat × Nat)
          ∈ scanSeq path.length w.orientation_indices.length :=
        (mem_scanSeq _ _ _).mpr ⟨h2p, h2o⟩
      rw [hseq] at hmem2
      rcases List.mem_append.mp hmem2 with hin1 | hin2
      · exact absurd heqc (ne_of_gt (h₁ _ hin1))
      · rcases List.mem_cons.mp hin2 with heq2 | hin2
        · injection heq2 with e1 e2
          subst e1; subst e2
          exact Or.inr ⟨rfl, le_refl _⟩
        · rcases hsplit2 _ hin2 with hl | ⟨hl1, hl2⟩
          · exact Or.inl hl
          · exact Or.inr ⟨hl1, le_of_lt hl2⟩

/-! ### The seeding of the first waypoint -/

lemma seedOrientation_runScan {E : Type} (s : Point) (w : Waypoint E) :
    seedOrientation (some s) w
      = ((runScan (fun oi => vSize (s - (w.orientation_indices.getD oi ((0, 0), (0, 0))).1))
          (List.range w.orientation_indices.length) (int64Max, none)).2).getD 0 := rfl

lemma seedOrientation_lt {E : Type} (sp : Option Point) (w : Waypoint E)
    (hw : w.orientation_indices ≠ []) :
    seedOrientation sp w < w.orientation_indices.length := by
  have hlen : 0 < w.orientation_indices.length := List.length_pos.mpr hw
  cases sp with
  | none => exact hlen
  | some s =>
    rw [seedOrientation_runScan]
    rcases hr : (runScan (fun oi => vSize (s - (w.orientation_indices.getD oi ((0, 0), (0, 0))).1))
        (List.range w.orientation_indices.length) (int64Max, none)).2 with _ | b
    · exact hlen
    · rcases runScan_some_mem _ _ _ _ hr with hcon | hmem
      · exact Option.noConfusion hcon
      · rw [Option.getD_some]
        exact List.mem_range.mp hmem

/-! ### One insertion round: membership and permutation -/

lemma insertRound_mem {E : Type} [Inhabited E] (sp : Option Point)
    (path : List (PlacedWaypoint E)) (w : Waypoint E) :
    ∀ p ∈ insertRound sp path w,
      p ∈ path ∨ ∃ orientation, p = (⟨w, orientation⟩ : PlacedWaypoint E) ∧
        (w.orientation_indices ≠ [] → orientation < w.orientation_indices.length) := by
  intro p hp
  rcases hsc : (scanRound sp path w).2 with _ | ⟨pos, orientation⟩
  · simp only [insertRound, hsc] at hp
    rcases List.mem_cons.mp hp with rfl | hin
    · exact Or.inr ⟨0, rfl, fun hne => List.length_pos.mpr hne⟩
    · exact Or.inl hin
  · simp only [insertRound, hsc] at hp
    have hne : path ≠ [] := by
      intro hnil
      subst hnil
      exact Option.noConfusion
        (show (none : Option (Nat × Nat)) = some (pos, orientation) from hsc)
    rw [scanRound_runScan sp path w hne] at hsc
    rcases runScan_some_mem _ _ _ _ hsc with hcon | hmem
    · exact Option.noConfusion hcon
    · have horient := ((mem_scanSeq _ _ _).mp hmem).2
      obtain ⟨l₁, l₂, hsplit1, hsplit2⟩ := insertAt_split pos (⟨w, orientation⟩ :
        PlacedWaypoint E) path
      rw [hsplit2] at hp
      rcases List.mem_append.mp hp with hin1 | hin2
      · rw [hsplit1]; exact Or.inl (List.mem_append.mpr (Or.inl hin1))
      · rcases List.mem_cons.mp hin2 with rfl | hin2
        · exact Or.inr ⟨orientation, rfl, fun _ => horient⟩
        · rw [hsplit1]; exact Or.inl (List.mem_append.mpr (Or.inr hin2))

lemma insertAt_map_perm {α β : Type} (pos : Nat) (x : α) (l : List α) (f : α → β) :
    ((insertAt pos x l).map f).Perm (f x :: l.map f) := by
  obtain ⟨l₁, l₂, h1, h2⟩ := insertAt_split pos x l
  rw [h2, h1]
  rw [List.map_append, List.map_cons, List.map_append]
  exact List.perm_middle

lemma insertRound_element_perm {E : Type} [Inhabited E] (sp : Option Point)
    (path : List (PlacedWaypoint E)) (w : Waypoint E) :
    ((insertRound sp path w).map (fun p => p.wp.element)).Perm
      (w.element :: path.map (fun p => p.wp.element)) := by
  rcases hsc : (scanRound sp path w).2 with _ | ⟨pos, orientation⟩
  · simp only [insertRound, hsc]
    exact insertAt_map_perm 0 _ path _
  · simp only [insertRound, hsc]
    exact insertAt_map_perm pos _ path _

/-! ### Folding all remaining waypoints -/

lemma foldl_insertRound_mem {E : Type} [Inhabited E] (sp : Option Point)
    (P : PlacedWaypoint E → Prop) :
    ∀ (ws : List (Waypoint E)) (path : List (PlacedWaypoint E)),
      (∀ w ∈ ws, w.orientation_indices ≠ [] ∧
        ∀ orientation, orientation < w.orientation_indices.length →
          P ⟨w, orientation⟩) →
      (∀ p ∈ path, P p) →
      ∀ p ∈ ws.foldl (fun pth w => insertRound sp pth w) path, P p := by
  intro ws
  induction ws with
  | nil => intro path _ h2 p hp; exact h2 p hp
  | cons w ws ih =>
    intro path h1 h2 p hp
    refine ih (insertRound sp path w)
      (fun w2 hw2 => h1 w2 (List.mem_cons_of_mem _ hw2)) ?_ p hp
    intro p2 hp2
    rcases insertRound_mem sp path w p2 hp2 with hin | ⟨orientation, rfl, hlt⟩
    · exact h2 p2 hin
    · obtain ⟨hne, hP⟩ := h1 w (List.mem_cons_self _ _)
      exact hP orientation (hlt hne)

lemma foldl_insertRound_perm {E : Type} [Inhabited E] (sp : Option Point) :
    ∀ (ws : List (Waypoint E)) (path : List (PlacedWaypoint E)),
      ((ws.foldl (fun pth w => insertRound sp pth w) path).map
          (fun p => p.wp.element)).Perm
        (path.map (fun p => p.wp.element) ++ ws.map (fun w => w.element)) := by
  intro ws
  induction ws with
  | nil =>
    intro path
    rw [List.foldl_nil, List.map_nil, List.append_nil]
  | cons w ws ih =>
    intro path
    rw [List.foldl_cons]
    refine (ih (insertRound sp path w)).trans ?_
    rw [List.map_cons]
    refine ((insertRound_element_perm sp path w).append_right _).trans ?_
    exact List.perm_middle.symm

/-! ### Facts about `fillWaypoints` and the shape of `findPath` -/

lemma fillWaypoints_map_element {E : Type} (get_orientations : E → List (Point × Point)) :
    ∀ (elements : List E),
      (fillWaypoints get_orientations elements).map (fun w => w.element) = elements := by
  intro elements
  induction elements with
  | nil => rfl
  | cons e es ih =>
    show e :: (fillWaypoints get_orientations es).map (fun w => w.element) = e :: es
    rw [ih]

lemma mem_fillWaypoints {E : Type} (get_orientations : E → List (Point × Point))
    (elements : List E) (w : Waypoint E) (hw : w ∈ fillWaypoints get_orientations elements) :
    w.orientation_indices = get_orientations w.element ∧ w.element ∈ elements := by
  obtain ⟨e, he, rfl⟩ := List.mem_map.mp hw
  exact ⟨rfl, he⟩

lemma findPath_eq_of_shuffle {E : Type}
    (get_orientations : E → List (Point × Point)) (e : E) (es : List E)
    (element_orientations : List Nat) (starting_point : Option Point)
    (w0 : Waypoint E) (rest : List (Waypoint E))
    (hsh : shuffle (fillWaypoints get_orientations (e :: es)) = w0 :: rest) :
    findPath get_orientations (e :: es) element_orientations starting_point
      = ((rest.foldl (fun p w => insertRound starting_point p w)
            [⟨w0, seedOrientation starting_point w0⟩]).map (fun p => p.wp.element),
         (rest.foldl (fun p w => insertRound starting_point p w)
            [⟨w0, seedOrientation starting_point w0⟩]).map
            (fun p => p.best_orientation_index)) := by
  simp only [findPath]
  rw [hsh]

lemma forall₂_map_map {α β γ : Type} (l : List α) (f : α → β) (g : α → γ)
    (R : β → γ → Prop) (h : ∀ x ∈ l, R (f x) (g x)) :
    List.Forall₂ R (l.map f) (l.map g) := by
  induction l with
  | nil => exact List.Forall₂.nil
  | cons a t ih =>
    exact List.Forall₂.cons (h a (List.mem_cons_self a t))
      (ih (fun x hx => h x (List.mem_cons_of_mem a hx)))

/-! ### Concrete data used to instantiate the theorems below -/

/-- A one-element working path: one placed waypoint with a single orientation
from (2,0) to (3,0), chosen index 0. -/
def pathc : List (PlacedWaypoint Nat) := [⟨⟨[(((2 : Int), (0 : Int)), ((3 : Int), (0 : Int)))], 0⟩, 0⟩]

/-- A waypoint to insert: a single orientation from (0,0) to (1,0). -/
def wc : Waypoint Nat := ⟨[(((0 : Int), (0 : Int)), ((1 : Int), (0 : Int)))], 1⟩

/-- A waypoint with two orientation candidates whose entry points are (5,0)
and (1,0): from the origin the second is strictly nearer. -/
def wc2 : Waypoint Nat :=
  ⟨[(((5 : Int), (0 : Int)), ((5 : Int), (0 : Int))),
    (((1 : Int), (0 : Int)), ((1 : Int), (0 : Int)))], 9⟩

lemma goodPath_pathc : GoodPath pathc := by
  intro p hp
  simp only [pathc, List.mem_singleton] at hp
  subst hp
  constructor
  · show (0 : Nat) < 1
    decide
  · intro q hq
    simp only [List.mem_singleton] at hq
    subst hq
    exact ⟨⟨by decide, by decide⟩, ⟨by decide, by decide⟩⟩

lemma boundedW_wc : BoundedW wc := by
  intro q hq
  simp only [wc, List.mem_singleton] at hq
  subst hq
  exact ⟨⟨by decide, by decide⟩, ⟨by decide, by decide⟩⟩

lemma boundedW_wc2 : BoundedW wc2 := by
  intro q hq
  simp only [wc2, List.mem_cons, List.not_mem_nil, or_false] at hq
  rcases hq with rfl | rfl
  · exact ⟨⟨by decide, by decide⟩, ⟨by decide, by decide⟩⟩
  · exact ⟨⟨by decide, by decide⟩, ⟨by decide, by decide⟩⟩

/-! ### The claims -/

/-- C3: for every orientation resolver and every optional starting point,
`findPath` on the empty element sequence returns the empty sequence and leaves
the `element_orientations` output equal to the empty sequence (the early return
of lines 230-233 touches nothing, so an output vector that starts empty stays
empty), raising no error. -/
theorem findPath_empty_input {E : Type} (get_orientations : E → List (Point × Point))
    (starting_point : Option Point) :
    findPath get_orientations [] [] starting_point = ([], []) := rfl

/-- C7: without a starting point the first shuffled waypoint is seeded with
orientation index 0 (line 243), and a one-element input without a starting
point yields that element with orientation index 0. -/
theorem seed_orientation_without_starting_point {E : Type} (w : Waypoint E)
    (get_orientations : E → List (Point × Point)) (e : E)
    (element_orientations : List Nat) :
    seedOrientation none w = 0 ∧
    findPath get_orientations [e] element_orientations none = ([e], [0]) := by
  constructor
  · rfl
  · have h1 : shuffle (fillWaypoints get_orientations [e])
        = [(⟨get_orientations e, e⟩ : Waypoint E)] := shuffle_singleton _
    rw [findPath_eq_of_shuffle get_orientations e [] element_orientations none _ [] h1]
    rfl

/-- C2: `findPath` is deterministic.  It is a pure function of its arguments:
two calls with resolvers of identical behaviour (even when they are distinct
function terms) give identical element sequences and identical
`element_orientations`; the shuffle is seeded with the fixed hard-coded
constant `0xDECAFF` (line 235) and nothing else feeds the permutation. -/
theorem findPath_deterministic {E : Type} (getOr1 getOr2 : E → List (Point × Point))
    (elements : List E) (element_orientations : List Nat) (starting_point : Option Point)
    (h : ∀ e, getOr1 e = getOr2 e) :
    findPath getOr1 elements element_orientations starting_point
      = findPath getOr2 elements element_orientations starting_point ∧
    ∀ (l : List (Waypoint E)), shuffle l = shuffleGo l.length 0xDECAFF l := by
  have heq : getOr1 = getOr2 := funext h
  subst heq
  exact ⟨rfl, fun _ => rfl⟩

theorem findPath_deterministic_witness :
    findPath (fun _ : Nat => [(((0 : Int), (0 : Int)), ((1 : Int), (1 : Int)))]) [0] [] none
      = findPath (fun _ : Nat => [(((0 : Int), (0 : Int)), ((1 : Int), (1 : Int)))]) [0] [] none ∧
    ∀ (l : List (Waypoint Nat)), shuffle l = shuffleGo l.length 0xDECAFF l :=
  findPath_deterministic _ _ [0] [] none (fun _ => rfl)

/-- C8: a committed insertion only splits the existing path in two and puts the
new waypoint between the parts: every already-placed waypoint keeps its record
(so its chosen orientation, written once at its own insertion, never changes)
and the relative order of the placed waypoints is preserved in every round. -/
theorem placed_waypoints_never_revisited {E : Type} [Inhabited E]
    (starting_point : Option Point) (path : List (PlacedWaypoint E)) (w : Waypoint E) :
    ∃ orientation l₁ l₂, path = l₁ ++ l₂ ∧
      insertRound starting_point path w
        = l₁ ++ (⟨w, orientation⟩ : PlacedWaypoint E) :: l₂ := by
  rcases hsc : (scanRound starting_point path w).2 with _ | ⟨pos, orientation⟩
  · obtain ⟨l₁, l₂, h1, h2⟩ := insertAt_split 0 (⟨w, 0⟩ : PlacedWaypoint E) path
    exact ⟨0, l₁, l₂, h1, by simp only [insertRound, hsc]; exact h2⟩
  · obtain ⟨l₁, l₂, h1, h2⟩ := insertAt_split pos (⟨w, orientation⟩ : PlacedWaypoint E) path
    exact ⟨orientation, l₁, l₂, h1, by simp only [insertRound, hsc]; exact h2⟩

/-- C5: one round's scan is exactly the strict-improvement minimization of the
insertion-cost formulas stated by the spec — front: optional starting-point
leg plus leg to the first element's chosen entry; back: leg from the last
element's chosen exit; middle: the two new legs minus the replaced edge — over
all `(position, orientation)` pairs, every distance being the Euclidean
magnitude `vSize` of the difference of the two points. -/
theorem insertion_cost_by_position_case {E : Type} [Inhabited E]
    (starting_point : Option Point) (path : List (PlacedWaypoint E)) (w : Waypoint E)
    (hne : path ≠ []) :
    scanRound starting_point path w
      = runScan (fun pr => insertionCost starting_point path w pr.1 pr.2)
          (scanSeq path.length w.orientation_indices.length) (int64Max, none) :=
  scanRound_runScan starting_point path w hne

theorem insertion_cost_by_position_case_witness :
    scanRound none pathc wc
      = runScan (fun pr => insertionCost none pathc wc pr.1 pr.2)
          (scanSeq pathc.length wc.orientation_indices.length) (int64Max, none) :=
  insertion_cost_by_position_case none pathc wc (by simp [pathc])

/-- C4: in every insertion round the committed `(position, orientation)` pair
has insertion cost less than or equal to every alternative pair available in
that round, and among equal-cost pairs the first one in scan order (front, then
middles left to right, then back; orientations ascending) wins, because the
running minimum is updated only on strict less-than. -/
theorem insertion_round_locally_optimal {E : Type} [Inhabited E]
    (starting_point : Option Point) (path : List (PlacedWaypoint E)) (w : Waypoint E)
    (hpath : path ≠ []) (hgood : GoodPath path)
    (hw : w.orientation_indices ≠ []) (hb : BoundedW w) (hsp : spBounded starting_point) :
    ∃ pos orientation,
      (scanRound starting_point path w).2 = some (pos, orientation) ∧
      insertRound starting_point path w
        = insertAt pos (⟨w, orientation⟩ : PlacedWaypoint E) path ∧
      (scanRound starting_point path w).1
        = insertionCost starting_point path w pos orientation ∧
      pos ≤ path.length ∧ orientation < w.orientation_indices.length ∧
      (∀ pos2 orientation2, pos2 ≤ path.length →
        orientation2 < w.orientation_indices.length →
        insertionCost starting_point path w pos orientation
          ≤ insertionCost starting_point path w pos2 orientation2) ∧
      (∀ pos2 orientation2, pos2 ≤ path.length →
        orientation2 < w.orientation_indices.length →
        insertionCost starting_point path w pos2 orientation2
          = insertionCost starting_point path w pos orientation →
        pos < pos2 ∨ (pos = pos2 ∧ orientation ≤ orientation2)) := by
  obtain ⟨pos, orientation, h1, h2, h3, h4, h5, h6, h7⟩ :=
    scanRound_spec starting_point path w hpath hgood hw hb hsp
  exact ⟨pos, orientation, h1, by simp only [insertRound, h1], h2, h4, h5, h6, h7⟩

theorem insertion_round_locally_optimal_witness :
    ∃ pos orientation,
      (scanRound none pathc wc).2 = some (pos, orientation) ∧
      insertRound none pathc wc = insertAt pos (⟨wc, orientation⟩ : PlacedWaypoint Nat) pathc ∧
      (scanRound none pathc wc).1 = insertionCost none pathc wc pos orientation ∧
      pos ≤ pathc.length ∧ orientation < wc.orientation_indices.length ∧
      (∀ pos2 orientation2, pos2 ≤ pathc.length →
        orientation2 < wc.orientation_indices.length →
        insertionCost none pathc wc pos orientation
          ≤ insertionCost none pathc wc pos2 orientation2) ∧
      (∀ pos2 orientation2, pos2 ≤ pathc.length →
        orientation2 < wc.orientation_indices.length →
        insertionCost none pathc wc pos2 orientation2
          = insertionCost none pathc wc pos orientation →
        pos < pos2 ∨ (pos = pos2 ∧ orientation ≤ orientation2)) :=
  insertion_round_locally_optimal none pathc wc (by simp [pathc]) goodPath_pathc
    (by simp [wc]) boundedW_wc trivial

/-- C10: under the precondition that the new waypoint has at least one
orientation candidate (and coordinates in the representable range), the round's
scan always finds a candidate: the final best distance is strictly below the
sentinel, the committed position and orientation are initialized and in range
before the commit reads them, every waypoint of the updated path has an
in-range chosen orientation index, and the seeding scan also picks an in-range
index.  Without the candidate precondition the C++ code reads uninitialized
variables. -/
theorem scan_initialized_under_precondition {E : Type} [Inhabited E]
    (starting_point : Option Point) (path : List (PlacedWaypoint E)) (w : Waypoint E)
    (hpath : path ≠ []) (hgood : GoodPath path)
    (hw : w.orientation_indices ≠ []) (hb : BoundedW w) (hsp : spBounded starting_point) :
    (∃ pos orientation, (scanRound starting_point path w).2 = some (pos, orientation) ∧
      (scanRound starting_point path w).1 < int64Max ∧
      pos ≤ path.length ∧ orientation < w.orientation_indices.length) ∧
    (∀ p ∈ insertRound starting_point path w, ValidPlaced p) ∧
    seedOrientation starting_point w < w.orientation_indices.length := by
  obtain ⟨pos, orientation, h1, _, h3, h4, h5, _, _⟩ :=
    scanRound_spec starting_point path w hpath hgood hw hb hsp
  refine ⟨⟨pos, orientation, h1, h3, h4, h5⟩, ?_, seedOrientation_lt _ w hw⟩
  intro p hp
  rcases insertRound_mem starting_point path w p hp with hin | ⟨o2, rfl, hlt⟩
  · exact (hgood p hin).1
  · exact hlt hw

theorem scan_initialized_under_precondition_witness :
    (∃ pos orientation, (scanRound none pathc wc).2 = some (pos, orientation) ∧
      (scanRound none pathc wc).1 < int64Max ∧
      pos ≤ pathc.length ∧ orientation < wc.orientation_indices.length) ∧
    (∀ p ∈ insertRound none pathc wc, ValidPlaced p) ∧
    seedOrientation none wc < wc.orientation_indices.length :=
  scan_initialized_under_precondition none pathc wc (by simp [pathc]) goodPath_pathc
    (by simp [wc]) boundedW_wc trivial

/-- C6: with a starting point, the first shuffled waypoint is seeded with the
orientation index whose entry point minimizes the distance from the starting
point over all its candidates, the lowest index winning ties (lines 246-261);
in particular a one-element input with a starting point returns that element
with exactly that seeded orientation. -/
theorem seed_orientation_nearest_entry {E : Type} (s : Point) (w : Waypoint E)
    (hw : w.orientation_indices ≠ []) (hb : BoundedW w) (hs : boundedPt s) :
    (seedOrientation (some s) w < w.orientation_indices.length ∧
      (∀ j, j < w.orientation_indices.length →
        vSize (s - (w.orientation_indices.getD (seedOrientation (some s) w)
            ((0, 0), (0, 0))).1)
          ≤ vSize (s - (w.orientation_indices.getD j ((0, 0), (0, 0))).1)) ∧
      (∀ j, j < w.orientation_indices.length →
        vSize (s - (w.orientation_indices.getD j ((0, 0), (0, 0))).1)
          = vSize (s - (w.orientation_indices.getD (seedOrientation (some s) w)
              ((0, 0), (0, 0))).1) →
        seedOrientation (some s) w ≤ j)) ∧
    ∀ (get_orientations : E → List (Point × Point)) (e : E)
      (element_orientations : List Nat),
      findPath get_orientations [e] element_orientations (some s)
        = ([e], [seedOrientation (some s) (⟨get_orientations e, e⟩ : Waypoint E)]) := by
  have hlen : 0 < w.orientation_indices.length := List.length_pos.mpr hw
  constructor
  · rcases runScan_char
        (fun oi => vSize (s - (w.orientation_indices.getD oi ((0, 0), (0, 0))).1))
        (List.range w.orientation_indices.length) int64Max none with
      ⟨_, hall⟩ | ⟨b, s₁, s₂, hseq, heq, _, h₁, h₂⟩
    · exfalso
      have h0 := hall 0 (List.mem_range.mpr hlen)
      have hq := hb _ (getD_mem_of_lt w.orientation_indices 0 ((0, 0), (0, 0)) hlen)
      have hv := vSize_sub_le hs hq.1
      rw [show int64Max = 9223372036854775807 from rfl] at h0
      omega
    · have hseed : seedOrientation (some s) w = b := by
        rw [seedOrientation_runScan, heq, Option.getD_some]
      have hbmem : b ∈ List.range w.orientation_indices.length := by
        rw [hseq]
        exact List.mem_append.mpr (Or.inr (List.mem_cons_self _ _))
      have hblt : b < w.orientation_indices.length := List.mem_range.mp hbmem
      have hpw := List.pairwise_lt_range w.orientation_indices.length
      rw [hseq] at hpw
      obtain ⟨_, hsp2⟩ := pairwise_split s₁ b s₂ hpw
      rw [hseed]
      refine ⟨hblt, ?_, ?_⟩
      · intro j hj
        have hjmem : j ∈ List.range w.orientation_indices.length := List.mem_range.mpr hj
        rw [hseq] at hjmem
        rcases List.mem_append.mp hjmem with hin1 | hin2
        · exact le_of_lt (h₁ _ hin1)
        · rcases List.mem_cons.mp hin2 with rfl | hin2
          · exact le_refl _
          · exact h₂ _ hin2
      · intro j hj heqc
        have hjmem : j ∈ List.range w.orientation_indices.length := List.mem_range.mpr hj
        rw [hseq] at hjmem
        rcases List.mem_append.mp hjmem with hin1 | hin2
        · exact absurd heqc (ne_of_gt (h₁ _ hin1))
        · rcases List.mem_cons.mp hin2 with rfl | hin2
          · exact le_refl _
          · exact le_of_lt (hsp2 _ hin2)
  · intro get_orientations e element_orientations
    have h1 : shuffle (fillWaypoints get_orientations [e])
        = [(⟨get_orientations e, e⟩ : Waypoint E)] := shuffle_singleton _
    rw [findPath_eq_of_shuffle get_orientations e [] element_orientations (some s) _ [] h1]
    rfl

theorem seed_orientation_nearest_entry_witness :
    ((seedOrientation (some ((0 : Int), (0 : Int))) wc2 < wc2.orientation_indices.length ∧
      (∀ j, j < wc2.orientation_indices.length →
        vSize (((0 : Int), (0 : Int))
            - (wc2.orientation_indices.getD (seedOrientation (some ((0 : Int), (0 : Int))) wc2)
              ((0, 0), (0, 0))).1)
          ≤ vSize (((0 : Int), (0 : Int))
            - (wc2.orientation_indices.getD j ((0, 0), (0, 0))).1)) ∧
      (∀ j, j < wc2.orientation_indices.length →
        vSize (((0 : Int), (0 : Int)) - (wc2.orientation_indices.getD j ((0, 0), (0, 0))).1)
          = vSize (((0 : Int), (0 : Int))
            - (wc2.orientation_indices.getD (seedOrientation (some ((0 : Int), (0 : Int))) wc2)
              ((0, 0), (0, 0))).1) →
        seedOrientation (some ((0 : Int), (0 : Int))) wc2 ≤ j)) ∧
    ∀ (get_orientations : Nat → List (Point × Point)) (e : Nat)
      (element_orientations : List Nat),
      findPath get_orientations [e] element_orientations (some ((0 : Int), (0 : Int)))
        = ([e], [seedOrientation (some ((0 : Int), (0 : Int)))
            (⟨get_orientations e, e⟩ : Waypoint Nat)])) :=
  seed_orientation_nearest_entry ((0 : Int), (0 : Int)) wc2 (by simp [wc2]) boundedW_wc2
    ⟨by decide, by decide⟩

/-- C1: for every non-empty input in which every element has at least one
orientation candidate, `findPath` returns a permutation of the input (no
element dropped) together with an equally long, order-aligned orientation-index
sequence in which every index is valid for its element's candidate count. -/
theorem findPath_permutation_and_valid_orientations {E : Type} [Inhabited E]
    (get_orientations : E → List (Point × Point)) (elements : List E)
    (element_orientations : List Nat) (starting_point : Option Point)
    (hne : elements ≠ [])
    (hor : ∀ e ∈ elements, get_orientations e ≠ []) :
    (findPath get_orientations elements element_orientations starting_point).1.Perm
      elements ∧
    List.Forall₂ (fun e orientation => orientation < (get_orientations e).length)
      (findPath get_orientations elements element_orientations starting_point).1
      (findPath get_orientations elements element_orientations starting_point).2 := by
  cases elements with
  | nil => exact absurd rfl hne
  | cons e es =>
    rcases hsh : shuffle (fillWaypoints get_orientations (e :: es)) with _ | ⟨w0, rest⟩
    · exfalso
      have hlen := shuffle_length (fillWaypoints get_orientations (e :: es))
      rw [hsh] at hlen
      simp [fillWaypoints] at hlen
    · have hgoodall : ∀ w2 ∈ shuffle (fillWaypoints get_orientations (e :: es)),
          w2.orientation_indices = get_orientations w2.element ∧
          w2.orientation_indices ≠ [] := by
        intro w2 hw2
        have hw2f : w2 ∈ fillWaypoints get_orientations (e :: es) :=
          ((shuffle_perm _).mem_iff).mp hw2
        obtain ⟨h1, h2⟩ := mem_fillWaypoints _ _ _ hw2f
        exact ⟨h1, by rw [h1]; exact hor _ h2⟩
      have hw0 := hgoodall w0 (by rw [hsh]; exact List.mem_cons_self w0 rest)
      have hrest : ∀ w2 ∈ rest, w2.orientation_indices = get_orientations w2.element ∧
          w2.orientation_indices ≠ [] := fun w2 hw2 =>
        hgoodall w2 (by rw [hsh]; exact List.mem_cons_of_mem w0 hw2)
      rw [findPath_eq_of_shuffle get_orientations e es element_orientations
        starting_point w0 rest hsh]
      have hinv : ∀ p ∈ rest.foldl (fun p w => insertRound starting_point p w)
          [⟨w0, seedOrientation starting_point w0⟩], ValidPlaced p ∧
          p.wp.orientation_indices = get_orientations p.wp.element := by
        refine foldl_insertRound_mem starting_point _ rest _ ?_ ?_
        · intro w2 hw2
          exact ⟨(hrest w2 hw2).2, fun orientation ho => ⟨ho, (hrest w2 hw2).1⟩⟩
        · intro p hp
          rcases List.mem_singleton.mp hp with rfl
          exact ⟨seedOrientation_lt starting_point w0 hw0.2, hw0.1⟩
      constructor
      · refine (foldl_insertRound_perm starting_point rest _).trans ?_
        have hshape : ([(⟨w0, seedOrientation starting_point w0⟩ : PlacedWaypoint E)]).map
              (fun p => p.wp.element) ++ rest.map (fun w2 => w2.element)
            = (w0 :: rest).map (fun w2 => w2.element) := rfl
        rw [hshape, ← hsh]
        refine ((shuffle_perm _).map _).trans ?_
        rw [fillWaypoints_map_element]
      · refine forall₂_map_map _ _ _ _ ?_
        intro p hp
        obtain ⟨hv, htrack⟩ := hinv p hp
        rw [← htrack]
        exact hv

theorem findPath_permutation_witness :
    (findPath (fun _ : Nat => [(((0 : Int), (0 : Int)), ((1 : Int), (0 : Int)))])
        [0, 1] [] none).1.Perm [0, 1] ∧
    List.Forall₂ (fun e orientation => orientation
        < ((fun _ : Nat => [(((0 : Int), (0 : Int)), ((1 : Int), (0 : Int)))]) e).length)
      (findPath (fun _ : Nat => [(((0 : Int), (0 : Int)), ((1 : Int), (0 : Int)))])
        [0, 1] [] none).1
      (findPath (fun _ : Nat => [(((0 : Int), (0 : Int)), ((1 : Int), (0 : Int)))])
        [0, 1] [] none).2 :=
  findPath_permutation_and_valid_orientations _ [0, 1] [] none (by simp) (by simp)

lemma scanSeqFrom_length (n : Nat) : ∀ (k p : Nat), (scanSeqFrom n p k).length = k * n := by
  intro k
  induction k with
  | zero => intro p; simp [scanSeqFrom]
  | succ k ih =>
    intro p
    show ((List.range n).map (fun o => (p, o)) ++ scanSeqFrom n (p + 1) k).length
      = (k + 1) * n
    rw [List.length_append, List.length_map, List.length_range, ih (p + 1)]
    ring

/-- C9 (amended): for a non-empty input of `n` elements, `findPath` terminates
after seeding the path with the first shuffled waypoint and performing exactly
`n - 1` insertion rounds (one fold step per remaining waypoint); every round
inspects exactly `(current path length + 1) × orientation count` candidate
pairs — finitely many, one position more than the path length because the front
and back are both candidates. -/
theorem findPath_round_structure {E : Type}
    (get_orientations : E → List (Point × Point)) (elements : List E)
    (element_orientations : List Nat) (starting_point : Option Point)
    (hne : elements ≠ []) :
    ∃ w0 rest, shuffle (fillWaypoints get_orientations elements) = w0 :: rest ∧
      rest.length = elements.length - 1 ∧
      findPath get_orientations elements element_orientations starting_point
        = ((rest.foldl (fun p w => insertRound starting_point p w)
            [⟨w0, seedOrientation starting_point w0⟩]).map (fun p => p.wp.element),
           (rest.foldl (fun p w => insertRound starting_point p w)
            [⟨w0, seedOrientation starting_point w0⟩]).map
            (fun p => p.best_orientation_index)) ∧
      ∀ m n : Nat, (scanSeq m n).length = (m + 1) * n := by
  cases elements with
  | nil => exact absurd rfl hne
  | cons e es =>
    rcases hsh : shuffle (fillWaypoints get_orientations (e :: es)) with _ | ⟨w0, rest⟩
    · exfalso
      have hlen := shuffle_length (fillWaypoints get_orientations (e :: es))
      rw [hsh] at hlen
      simp [fillWaypoints] at hlen
    · have hlen := shuffle_length (fillWaypoints get_orientations (e :: es))
      rw [hsh] at hlen
      rw [fillWaypoints, List.length_map] at hlen
      have hlen2 : rest.length = (e :: es).length - 1 := by
        simp only [List.length_cons] at hlen ⊢
        omega
      refine ⟨w0, rest, rfl, hlen2,
        findPath_eq_of_shuffle _ e es _ _ w0 rest hsh, ?_⟩
      intro m n
      show (scanSeqFrom n 0 (m + 1)).length = (m + 1) * n
      exact scanSeqFrom_length n (m + 1) 0

theorem findPath_round_structure_witness :
    ∃ w0 rest,
      shuffle (fillWaypoints
          (fun _ : Nat => [(((0 : Int), (0 : Int)), ((1 : Int), (0 : Int)))]) [5, 7])
        = w0 :: rest ∧
      rest.length = ([5, 7] : List Nat).length - 1 ∧
      findPath (fun _ : Nat => [(((0 : Int), (0 : Int)), ((1 : Int), (0 : Int)))])
          [5, 7] [] none
        = ((rest.foldl (fun p w => insertRound none p w)
            [⟨w0, seedOrientation none w0⟩]).map (fun p => p.wp.element),
           (rest.foldl (fun p w => insertRound none p w)
            [⟨w0, seedOrientation none w0⟩]).map (fun p => p.best_orientation_index)) ∧
      ∀ m n : Nat, (scanSeq m n).length = (m + 1) * n :=
  findPath_round_structure _ [5, 7] [] none (by simp)

/-- C9 counterexample to the claimed bound: a round over a working path of
length 1, inserting a waypoint with exactly 1 orientation candidate, scans the
candidate sequence `scanSeq 1 1` of 2 pairs (front and back), which is not
bounded by path length × orientation count = 1 × 1. -/
theorem round_inspects_more_than_path_length_times_orientations :
    scanRound none pathc wc
      = runScan (fun pr => insertionCost none pathc wc pr.1 pr.2) (scanSeq 1 1)
          (int64Max, none) ∧
    (scanSeq 1 1).length = 2 ∧ ¬ ((scanSeq 1 1).length ≤ 1 * 1) := by
  refine ⟨scanRound_runScan none pathc wc (by simp [pathc]), ?_, ?_⟩
  · decide
  · decide
